import Mathlib

/-!
Verification of the scan-and-match pipeline of the CyberScan face organizer.

The model is a shallow embedding of `src/App.tsx` (the orchestrator, the
enumerator, the organizer and the app state machine), `src/types.ts` (the data
model) and the classifier service module (`checkFaceMatch`).

Conventions of the embedding:
* JavaScript numbers that carry confidences and percentages are modelled as
  exact rationals (`ℚ`); `Math.round` is Mathlib's `round` (both round half
  towards positive infinity).
* Encoded images, file bytes and file names are opaque `String`s; reading a
  file through a handle is modelled by the handle carrying its bytes.
* Asynchronous effects are unfolded into a sequence of observable states: each
  React `setX` group between `await` points produces one state in the trace.
* Fallible collaborator calls (profile build, per-candidate evaluation, file
  writes) are injected as explicit outcome oracles, mirroring which exceptions
  the source lets escape and which it catches.
-/

/-- Run states, from `AppStatus` in `src/types.ts`. -/
inductive AppStatus where
  | IDLE
  | INITIALIZING
  | SCANNING
  | ORGANIZING
  | COMPLETED
deriving DecidableEq

/-- Kind of a directory entry, as reported by `FileSystemDirectoryHandle.values()`
(`entry.kind` in `src/App.tsx` line 104). -/
inductive EntryKind where
  | file
  | directory
deriving DecidableEq

/-- One entry of the capability-handle directory source.  A file entry doubles
as its own `FileSystemFileHandle`: `content` is what `getFile()` yields. -/
structure DirEntry where
  kind : EntryKind
  name : String
  content : String
deriving DecidableEq

/-- One element of the legacy flat file list (a DOM `File`). -/
structure LFile where
  name : String
  content : String
deriving DecidableEq

/-- `PersonProfile` from `src/types.ts`. -/
structure PersonProfile where
  description : String
  originalImage : String
deriving DecidableEq

/-- The verdict object returned by `checkFaceMatch`: `{ match, confidence }`.
The source field `match` is a Lean keyword, so it is called `matchFlag` here. -/
structure MatchVerdict where
  matchFlag : Bool
  confidence : ℚ
deriving DecidableEq

/-- One element of `filesToScan` in `startScan`: a file plus, for the
capability-handle source only, a write-capable handle. -/
structure Candidate where
  name : String
  content : String
  handle : Option DirEntry
deriving DecidableEq

/-- `ScanResult` from `src/types.ts`; `match` is renamed `matchFlag`. -/
structure ScanResult where
  fileName : String
  matchFlag : Bool
  confidence : ℚ
  handle : Option DirEntry
  previewUrl : String
deriving DecidableEq

/-- The React state of `App` that the pipeline reads and writes
(`src/App.tsx` lines 8-16). -/
structure AppState where
  status : AppStatus
  refImage : Option String
  folderHandle : Option (List DirEntry)
  legacyFiles : List LFile
  profile : Option PersonProfile
  results : List ScanResult
  progress : ℤ
  totalFiles : Nat
  processedCount : Nat
deriving DecidableEq

/-- The initial React state (`useState` initialisers, `src/App.tsx` lines 8-16). -/
def initState : AppState :=
  { status := .IDLE, refImage := none, folderHandle := none, legacyFiles := [],
    profile := none, results := [], progress := 0, totalFiles := 0,
    processedCount := 0 }

/-- The acceptance threshold `0.6` of `src/App.tsx` line 133, written in the
normal form `3/5` so that the kernel can evaluate comparisons against it. -/
def threshold : ℚ := ⟨3, 5, by norm_num, by norm_num⟩

/-- The threshold constant is the literal `0.6` of the source. -/
theorem threshold_eq : threshold = 0.6 := by
  rw [threshold, Rat.mk'_eq_divInt, Rat.divInt_eq_div]
  norm_num

/-- The extension test of the regular expression `\.(jpe?g|png|webp)$` with the
`i` flag (`src/App.tsx` lines 78 and 104): the name, lowercased, must end in
one of the four literal extensions. -/
def isImageName (s : String) : Bool :=
  [".jpg", ".jpeg", ".png", ".webp"].any
    (fun e => e.data.isSuffixOf (s.data.map Char.toLower))

/-- Enumeration of the capability-handle source (`src/App.tsx` lines 101-108):
keep entries with `kind === 'file'` whose name passes the extension test, in
listing order, retaining the handle. -/
def enumerateDir (entries : List DirEntry) : List Candidate :=
  (entries.filter (fun e => decide (e.kind = .file) && isImageName e.name)).map
    (fun e => { name := e.name, content := e.content, handle := some e })

/-- Enumeration of the flat legacy source (`src/App.tsx` line 110): the stored
list is used as is, with no write handle and no re-filtering. -/
def enumerateLegacy (files : List LFile) : List Candidate :=
  files.map (fun f => { name := f.name, content := f.content, handle := none })

/-- The filter of `handleLegacyFolderSelect` (`src/App.tsx` line 78). -/
def legacyFilter (files : List LFile) : List LFile :=
  files.filter (fun f => isImageName f.name)

/-- `handleLegacyFolderSelect` (`src/App.tsx` lines 73-84): store the filtered
list and clear the directory handle, but only when the filter kept something. -/
def handleLegacyFolderSelect (s : AppState) (files : List LFile) : AppState :=
  let fs := legacyFilter files
  if fs.isEmpty then s
  else { s with legacyFiles := fs, folderHandle := none }

/-- `selectFolderModern` on a successful pick (`src/App.tsx` lines 55-60). -/
def selectFolderModern (s : AppState) (entries : List DirEntry) : AppState :=
  { s with folderHandle := some entries, legacyFiles := [] }

/-- Candidate enumeration as performed by `startScan` (`src/App.tsx`
lines 99-111): the directory source when a handle is present, else the
legacy list. -/
def enumCandidates (s : AppState) : List Candidate :=
  match s.folderHandle with
  | some entries => enumerateDir entries
  | none => enumerateLegacy s.legacyFiles

/-- JavaScript falsiness of the `refImage` state (`!refImage`,
`src/App.tsx` line 88): absent or the empty string. -/
def refMissing (s : AppState) : Bool :=
  match s.refImage with
  | none => true
  | some r => decide (r = "")

/-- Negation of `hasSource` (`src/App.tsx` line 87). -/
def sourceMissing (s : AppState) : Bool :=
  s.folderHandle.isNone && s.legacyFiles.isEmpty

/-- A JSON value, for the shape of what `JSON.parse` can return inside
`checkFaceMatch`. -/
inductive Json where
  | jnull
  | jbool (b : Bool)
  | jnum (q : ℚ)
  | jstr (s : String)
  | jarr (xs : List Json)
  | jobj (fields : List (String × Json))

/-- A classifier response string abstracted to its `JSON.parse` outcome:
either it parses to some JSON value, or `JSON.parse` throws. -/
inductive ParseOutcome where
  | parses (v : Json)
  | malformed

/-- The verdict object `{"match": false, "confidence": 0}` that the literal
fallback string of `checkFaceMatch` parses to. -/
def defaultVerdictJson : Json :=
  .jobj [("match", .jbool false), ("confidence", .jnum 0)]

/-- The tail of `checkFaceMatch` in the classifier service module: the response
text (`none` when absent or empty, in which case the literal default string is
parsed instead) is fed to `JSON.parse`; the parsed value is returned as is,
and only a parse exception is caught and replaced by the fallback verdict. -/
def checkFaceMatch : Option ParseOutcome → Json
  | none => defaultVerdictJson
  | some (.parses v) => v
  | some .malformed => defaultVerdictJson

/-- Field lookup in a JSON object, as JavaScript property access. -/
def jfield : List (String × Json) → String → Option Json
  | [], _ => none
  | (m, v) :: rest, n => if m = n then some v else jfield rest n

/-- A structurally valid verdict in the sense of claim C3: an object with a
boolean `match` field and a numeric `confidence` field lying in `[0, 1]`. -/
def wellFormedVerdict : Json → Prop
  | .jobj fs =>
      (∃ b, jfield fs "match" = some (.jbool b)) ∧
      (∃ q, jfield fs "confidence" = some (.jnum q) ∧ 0 ≤ q ∧ q ≤ 1)
  | _ => False

/-- The `ScanResult` built at `src/App.tsx` lines 134-140 for an accepted
candidate; the preview URL is the candidate's decoded bytes. -/
def mkResult (c : Candidate) (v : MatchVerdict) : ScanResult :=
  { fileName := c.name, matchFlag := v.matchFlag, confidence := v.confidence,
    handle := c.handle, previewUrl := c.content }

/-- The acceptance rule `match && confidence > 0.6` (`src/App.tsx` line 133). -/
def accepts (v : MatchVerdict) : Prop :=
  v.matchFlag = true ∧ v.confidence > threshold

instance (v : MatchVerdict) : Decidable (accepts v) :=
  inferInstanceAs (Decidable (v.matchFlag = true ∧ v.confidence > threshold))

/-- The scan loop of `startScan` (`src/App.tsx` lines 116-143), unfolded into
a trace of observable states.  `i` counts candidates already processed; each
iteration first publishes `processedCount`/`progress`, then consults the
per-candidate outcome oracle `vOf` (`error` is an exception escaping the loop:
decode failure or evaluator transport failure); an accepted verdict appends
one result.  An exception jumps to the `catch` of `startScan`, which only
alerts and resets the status to `IDLE`. -/
def scanLoop (vOf : Nat → Except Unit MatchVerdict) :
    List Candidate → AppState → Nat → List AppState
  | [], st, _ => [{ st with status := .COMPLETED }]
  | c :: rest, st, i =>
    let st1 := { st with
      processedCount := i + 1,
      progress := round ((((i + 1 : Nat) : ℚ) / (st.totalFiles : ℚ)) * 100) }
    match vOf i with
    | .error _ => [st1, { st1 with status := .IDLE }]
    | .ok v =>
      let st2 := if accepts v then { st1 with results := st1.results ++ [mkResult c v] }
                 else st1
      st1 :: st2 :: scanLoop vOf rest st2 (i + 1)

/-- The state right after the resets of `src/App.tsx` lines 90-93. -/
def scanInit (s : AppState) : AppState :=
  { s with
    status := .INITIALIZING, results := [],
    processedCount := 0, progress := 0 }

/-- The state after `setProfile` succeeds (`src/App.tsx` lines 96-97). -/
def scanProfiled (s : AppState) (desc : String) : AppState :=
  { scanInit s with
    profile := some { description := desc, originalImage := s.refImage.getD "" } }

/-- The state after enumeration fixes `totalFiles` and `SCANNING` begins
(`src/App.tsx` lines 113-114). -/
def scanEnumerated (s : AppState) (desc : String) : AppState :=
  { scanProfiled s desc with
    totalFiles := (enumCandidates s).length, status := .SCANNING }

/-- `startScan` (`src/App.tsx` lines 86-151) as a trace of observable states.
An empty trace is the early `return` of line 88.  `pOut` is the outcome of
`analyzeFaceProfile` (a thrown error lands in the `catch`, giving `IDLE`);
after the profile is stored, enumeration fixes `totalFiles` and the status
becomes `SCANNING` before the loop starts. -/
def startScanTrace (s : AppState) (pOut : Except Unit String)
    (vOf : Nat → Except Unit MatchVerdict) : List AppState :=
  if refMissing s || sourceMissing s then []
  else
    match pOut with
    | .error _ => [scanInit s, { scanInit s with status := .IDLE }]
    | .ok desc =>
      scanInit s :: scanProfiled s desc :: scanEnumerated s desc ::
        scanLoop vOf (enumCandidates s) (scanEnumerated s desc) 0

/-- The state left behind by a `startScan` invocation: the last state of the
trace, or the unchanged state when the trace is empty (early return). -/
def runFinal (s : AppState) (pOut : Except Unit String)
    (vOf : Nat → Except Unit MatchVerdict) : AppState :=
  (startScanTrace s pOut vOf).getLast?.getD s

/-- The results the loop accumulates over a candidate list whose verdicts are
given by `v`, starting at candidate index `i`: one result per accepted
verdict, in candidate order. -/
def acceptedFrom (v : Nat → MatchVerdict) : List Candidate → Nat → List ScanResult
  | [], _ => []
  | c :: rest, i =>
    (if accepts (v i) then [mkResult c (v i)] else []) ++ acceptedFrom v rest (i + 1)

/-- An outcome oracle whose first `k` candidates evaluate to well-formed
verdicts and whose candidate `k` throws a fatal error. -/
def abortAt (v : Nat → MatchVerdict) (k : Nat) : Nat → Except Unit MatchVerdict :=
  fun j => if j < k then Except.ok (v j) else Except.error ()

/-- The contents of the `CyberScan_Matches` destination directory: an ordered
association of file names to bytes. -/
def Store := List (String × String)

/-- Creating-or-overwriting one destination file
(`getFileHandle(name, create) / createWritable / write / close`,
`src/App.tsx` lines 160-163): replace the entry in place when the name exists,
append a new entry otherwise. -/
def setEntry : Store → String → String → Store
  | [], n, c => [(n, c)]
  | (m, d) :: rest, n, c =>
    if m = n then (m, c) :: rest else (m, d) :: setEntry rest n c

/-- Reading one destination file by name. -/
def lookupS : Store → String → Option String
  | [], _ => none
  | (m, d) :: rest, n => if m = n then some d else lookupS rest n

/-- The write loop of `organizeFiles` (`src/App.tsx` lines 158-164) over the
destination store.  `wOk i` tells whether the i-th iteration's storage
operations succeed; a result without a handle makes `res.handle.getFile()`
throw.  Either failure aborts the loop (lands in the `catch`); the Boolean
reports whether the loop ran to completion.  Source files live in the root
directory, never in the destination subdirectory, so a read is unaffected by
earlier writes and always yields the handle's bytes. -/
def organizeStore (wOk : Nat → Bool) :
    List ScanResult → Nat → Store → Store × Bool
  | [], _, st => (st, true)
  | r :: rest, i, st =>
    match r.handle with
    | none => (st, false)
    | some h =>
      if wOk i then organizeStore wOk rest (i + 1) (setEntry st r.fileName h.content)
      else (st, false)

/-- The success report of `organizeFiles` (`src/App.tsx` line 165): the alert
announces `results.length` files organized, and only on full success. -/
def organizeReported (rs : List ScanResult) (ok : Bool) : Option Nat :=
  if ok then some rs.length else none

/-- The observable app states of `organizeFiles` (`src/App.tsx` lines 153-172):
an early return when no handle or no results, otherwise `ORGANIZING` followed
by `COMPLETED` — the `catch` also sets `COMPLETED` (line 170), so the final
status does not depend on write failures, and `results` is never touched. -/
def organizeStateTrace (s : AppState) : List AppState :=
  if s.folderHandle.isNone || s.results.isEmpty then []
  else [{ s with status := .ORGANIZING }, { s with status := .COMPLETED }]

/-- The user interactions that drive the app, each carrying the outcomes of
the external collaborators it consults.  `setRef` is a completed
`handleFileUpload`/`handlePaste` read; `selectModern` a successful directory
pick; `selectLegacy` a legacy picker selection; `scan` a click on the scan
button; `organize` a click on the organize button. -/
inductive Event where
  | setRef (img : String)
  | selectModern (entries : List DirEntry)
  | selectLegacy (files : List LFile)
  | scan (pOut : Except Unit String) (vOf : Nat → Except Unit MatchVerdict)
  | organize

/-- The observable states one event produces from a quiescent state (empty
when the interaction is a no-op).  The `scan` and `organize` cases are guarded
by the `disabled` conditions of their buttons (`src/App.tsx` lines 275
and 333) on top of the functions' own early returns. -/
def stepTrace (s : AppState) : Event → List AppState
  | .setRef img => [{ s with refImage := some img }]
  | .selectModern entries => [selectFolderModern s entries]
  | .selectLegacy files =>
    if (legacyFilter files).isEmpty then [] else [handleLegacyFolderSelect s files]
  | .scan pOut vOf =>
    if s.status = .SCANNING then [] else startScanTrace s pOut vOf
  | .organize =>
    if s.status = .ORGANIZING then [] else organizeStateTrace s

/-- All observable states produced by a sequence of events, each event acting
on the last state the previous one left behind. -/
def runEvents : AppState → List Event → List AppState
  | _, [] => []
  | s, e :: es =>
    let tr := stepTrace s e
    tr ++ runEvents (tr.getLast?.getD s) es

/-- Every observable state of a session that starts at the initial state. -/
def fullTrace (es : List Event) : List AppState :=
  initState :: runEvents initState es

/-- The i-th observable state of a session (the initial state past the end). -/
def stateAt (es : List Event) (i : Nat) : AppState :=
  (fullTrace es).getD i initState

/-- Checks, over consecutive trace states, that the `ORGANIZING` status is
only ever entered from a `COMPLETED` state — the transition discipline claim
C8 asserts for the Organizing state. -/
def orgOnlyFromCompleted (tr : List AppState) : Bool :=
  (tr.zip tr.tail).all fun p =>
    !(decide (p.2.status = .ORGANIZING)) ||
      (decide (p.1.status = .ORGANIZING) || decide (p.1.status = .COMPLETED))

/-- Candidate names that claim C6 predicts for a directory source: every entry
whose name passes the image-extension test, regardless of its kind.  (Stated
from the claim's words, to be compared with `enumerateDir`.) -/
def claimEnumDirNames (entries : List DirEntry) : List String :=
  (entries.filter (fun e => isImageName e.name)).map DirEntry.name

/-- The rational 0.9 in reduced normal form, so the kernel can evaluate
comparisons against the threshold. -/
def q910 : ℚ := ⟨9, 10, by norm_num, by norm_num⟩

/-- Claim C3 counterexample: a classifier response that parses as JSON but not
into the verdict shape is returned as is, not replaced by the fallback — the
response body `5` (a valid JSON number) yields the bare number `5`, which is
not a structurally valid verdict; and a parseable object whose confidence is
`3/2` is returned with its out-of-range confidence intact. -/
theorem checkFaceMatch_unvalidated_cex :
    checkFaceMatch (some (.parses (.jnum 5))) = .jnum 5 ∧
    ¬ wellFormedVerdict (.jnum 5) ∧
    checkFaceMatch (some (.parses (.jnum 5))) ≠ defaultVerdictJson ∧
    checkFaceMatch (some (.parses (.jobj [("match", .jbool true), ("confidence", .jnum (3/2))]))) =
      .jobj [("match", .jbool true), ("confidence", .jnum (3/2))] ∧
    ¬ wellFormedVerdict (.jobj [("match", .jbool true), ("confidence", .jnum (3/2))]) := by
  refine ⟨rfl, fun h => h, fun h => Json.noConfusion h, rfl, ?_⟩
  rintro ⟨-, q, hq, -, h1⟩
  simp [jfield] at hq
  subst hq
  norm_num at h1

/-- C3 (amended): `checkFaceMatch` never raises; whenever the response text is
absent, empty, or fails to `JSON.parse`, it returns exactly the fallback
verdict `{match: false, confidence: 0}`, which is structurally valid; but
whenever the response parses, the parsed value is returned as is, with no
shape or range validation. -/
theorem checkFaceMatch_fallback :
    (∀ t, checkFaceMatch t = defaultVerdictJson ∨
      ∃ v, t = some (.parses v) ∧ checkFaceMatch t = v) ∧
    checkFaceMatch none = defaultVerdictJson ∧
    checkFaceMatch (some .malformed) = defaultVerdictJson ∧
    (∀ v, checkFaceMatch (some (.parses v)) = v) ∧
    wellFormedVerdict defaultVerdictJson := by
  refine ⟨?_, rfl, rfl, fun v => rfl, ?_⟩
  · intro t
    match t with
    | none => exact Or.inl rfl
    | some .malformed => exact Or.inl rfl
    | some (.parses v) => exact Or.inr ⟨v, rfl, rfl⟩
  · exact ⟨⟨false, rfl⟩, 0, rfl, le_refl 0, zero_le_one⟩

/-- The names an enumeration of the directory source yields are the names of
the file-kind, image-named entries, in listing order. -/
theorem enumerateDir_names (entries : List DirEntry) :
    (enumerateDir entries).map Candidate.name =
      (entries.filter (fun e => decide (e.kind = .file) && isImageName e.name)).map
        DirEntry.name := by
  simp [enumerateDir, List.map_map]

/-- A directory source used by claim C6's counterexample: a file `a.jpg` next
to a subdirectory that is itself named `b.jpg`. -/
def dirWithImageNamedSubdir : List DirEntry :=
  [{ kind := .file, name := "a.jpg", content := "A" },
   { kind := .directory, name := "b.jpg", content := "" }]

/-- Claim C6 counterexample: `b.jpg` passes the extension test, so the claim
("exactly those entries whose names end in ...") predicts it among the
candidates, but enumeration also requires `kind === 'file'` and drops the
image-named subdirectory. -/
theorem enumerateDir_skips_directories_cex :
    isImageName "b.jpg" = true ∧
    claimEnumDirNames dirWithImageNamedSubdir = ["a.jpg", "b.jpg"] ∧
    (enumerateDir dirWithImageNamedSubdir).map Candidate.name = ["a.jpg"] ∧
    (enumerateDir dirWithImageNamedSubdir).map Candidate.name ≠
      claimEnumDirNames dirWithImageNamedSubdir := by
  refine ⟨by decide, by decide, by decide, by decide⟩

/-- C6 (amended): for a capability-handle directory source, enumeration
returns exactly those file-kind entries whose names end in `.jpg`, `.jpeg`,
`.png` or `.webp` case-insensitively, in the source-supplied order with no
re-sorting (an image-named subdirectory is excluded); the legacy source is
filtered by the same extension predicate when it is selected, and enumerated
as is, in order; the claim's example yields `[a.jpg, c.PNG]` in that order. -/
theorem enumeration_filters_images :
    (∀ entries : List DirEntry,
      (enumerateDir entries).map Candidate.name =
        (entries.filter (fun e => decide (e.kind = .file) && isImageName e.name)).map
          DirEntry.name ∧
      List.Sublist ((enumerateDir entries).map Candidate.name)
        (entries.map DirEntry.name) ∧
      (∀ e : DirEntry, (∃ c ∈ enumerateDir entries, c.handle = some e) ↔
        (e ∈ entries ∧ e.kind = .file ∧ isImageName e.name = true))) ∧
    (∀ files : List LFile,
      (enumerateLegacy files).map Candidate.name = files.map LFile.name) ∧
    (∀ s files, (handleLegacyFolderSelect s files).legacyFiles =
      if (legacyFilter files).isEmpty then s.legacyFiles else legacyFilter files) ∧
    (∀ files, legacyFilter files = files.filter (fun f => isImageName f.name)) ∧
    (enumerateDir
      [{ kind := .file, name := "a.jpg", content := "1" },
       { kind := .file, name := "b.txt", content := "2" },
       { kind := .file, name := "c.PNG", content := "3" },
       { kind := .file, name := "d.gif", content := "4" }]).map Candidate.name =
      ["a.jpg", "c.PNG"] := by
  refine ⟨fun entries => ⟨enumerateDir_names entries, ?_, ?_⟩, ?_, ?_, fun _ => rfl, by decide⟩
  · rw [enumerateDir_names]
    exact List.Sublist.map DirEntry.name (List.filter_sublist entries)
  · intro e
    constructor
    · rintro ⟨c, hc, he⟩
      simp only [enumerateDir, List.mem_map, List.mem_filter] at hc
      obtain ⟨e2, ⟨hmem, hp⟩, rfl⟩ := hc
      obtain rfl : e2 = e := Option.some.inj he
      rw [Bool.and_eq_true, decide_eq_true_eq] at hp
      exact ⟨hmem, hp.1, hp.2⟩
    · rintro ⟨hmem, hk, hn⟩
      refine ⟨⟨e.name, e.content, some e⟩, ?_, rfl⟩
      simp only [enumerateDir, List.mem_map, List.mem_filter]
      exact ⟨e, ⟨hmem, by rw [Bool.and_eq_true, decide_eq_true_eq]; exact ⟨hk, hn⟩⟩, rfl⟩
  · intro files
    simp [enumerateLegacy, List.map_map]
  · intro s files
    by_cases h : (legacyFilter files).isEmpty <;> simp [handleLegacyFolderSelect, h]

/-- C10: starting a scan with unmet preconditions is a no-op: with no
reference image set, or no source selected (no directory handle and an empty
legacy list), `startScan` produces no observable state at all, and the state
it leaves behind is exactly the previous one — status, results, progress,
processedCount and totalFiles included. -/
theorem startScan_noop_on_missing_preconditions (s : AppState)
    (pOut : Except Unit String) (vOf : Nat → Except Unit MatchVerdict)
    (h : s.refImage = none ∨ (s.folderHandle = none ∧ s.legacyFiles = [])) :
    startScanTrace s pOut vOf = [] ∧ runFinal s pOut vOf = s := by
  have hg : (refMissing s || sourceMissing s) = true := by
    rcases h with h | ⟨h1, h2⟩
    · simp [refMissing, h]
    · simp [sourceMissing, h1, h2]
  exact ⟨by simp [startScanTrace, hg], by simp [runFinal, startScanTrace, hg]⟩

/-- Witness for C10 at the initial state (no reference image). -/
theorem startScan_noop_on_missing_preconditions_w :
    (initState.refImage = none ∨
      (initState.folderHandle = none ∧ initState.legacyFiles = [])) ∧
    (startScanTrace initState (.ok "d") (fun _ => .error ()) = [] ∧
      runFinal initState (.ok "d") (fun _ => .error ()) = initState) :=
  ⟨Or.inl rfl,
    startScan_noop_on_missing_preconditions initState (.ok "d") (fun _ => .error ())
      (Or.inl rfl)⟩

/-- A state with a reference image and a directory source that contains no
image-named file, so that enumeration yields zero candidates. -/
def emptySourceState : AppState :=
  { initState with
    refImage := some "ref",
    folderHandle := some [{ kind := .file, name := "notes.txt", content := "n" }] }

/-- Claim C4 counterexample: a run whose enumeration yields zero candidates
does complete with no results, but the progress it reports is the initial
`0`, never `100`: the loop body that computes percentages is not executed. -/
theorem zero_candidates_progress_cex :
    (runFinal emptySourceState (.ok "d") (fun _ => .error ())).status = .COMPLETED ∧
    (runFinal emptySourceState (.ok "d") (fun _ => .error ())).results = [] ∧
    (runFinal emptySourceState (.ok "d") (fun _ => .error ())).totalFiles = 0 ∧
    (runFinal emptySourceState (.ok "d") (fun _ => .error ())).progress = 0 ∧
    (runFinal emptySourceState (.ok "d") (fun _ => .error ())).progress ≠ 100 := by
  exact ⟨rfl, rfl, rfl, rfl, by decide⟩

/-- C4 (amended): a run whose enumeration yields zero candidates completes
immediately — the trace is exactly initialisation, profile, the enumerated
`SCANNING` state and `COMPLETED`, with no per-candidate step — the result set
is empty, and the progress reported to the caller stays at the single initial
report of `0%` with `0` of `0` items (it is never set to `100`). -/
theorem scan_zero_candidates (s : AppState) (desc : String)
    (vOf : Nat → Except Unit MatchVerdict)
    (h1 : refMissing s = false) (h2 : sourceMissing s = false)
    (h0 : enumCandidates s = []) :
    startScanTrace s (.ok desc) vOf =
      [scanInit s, scanProfiled s desc, scanEnumerated s desc,
        { scanEnumerated s desc with status := .COMPLETED }] ∧
    (runFinal s (.ok desc) vOf).status = .COMPLETED ∧
    (runFinal s (.ok desc) vOf).results = [] ∧
    (runFinal s (.ok desc) vOf).processedCount = 0 ∧
    (runFinal s (.ok desc) vOf).totalFiles = 0 ∧
    (runFinal s (.ok desc) vOf).progress = 0 ∧
    ∀ t ∈ startScanTrace s (.ok desc) vOf, t.progress = 0 ∧ t.processedCount = 0 := by
  have htr : startScanTrace s (.ok desc) vOf =
      [scanInit s, scanProfiled s desc, scanEnumerated s desc,
        { scanEnumerated s desc with status := .COMPLETED }] := by
    simp [startScanTrace, h1, h2, h0, scanLoop]
  have hfin : runFinal s (.ok desc) vOf =
      { scanEnumerated s desc with status := .COMPLETED } := by
    simp [runFinal, htr]
  refine ⟨htr, by simp [hfin], ?_, ?_, ?_, ?_, ?_⟩
  · simp [hfin, scanEnumerated, scanProfiled, scanInit]
  · simp [hfin, scanEnumerated, scanProfiled, scanInit]
  · simp [hfin, scanEnumerated, h0]
  · simp [hfin, scanEnumerated, scanProfiled, scanInit]
  · intro t ht
    rw [htr] at ht
    simp only [List.mem_cons, List.mem_singleton, List.not_mem_nil, or_false] at ht
    rcases ht with rfl | rfl | rfl | rfl <;>
      simp [scanEnumerated, scanProfiled, scanInit]

/-- Witness for C4 (amended) at a directory source holding one non-image file. -/
theorem scan_zero_candidates_w :
    refMissing emptySourceState = false ∧
    sourceMissing emptySourceState = false ∧
    enumCandidates emptySourceState = [] ∧
    ((runFinal emptySourceState (.ok "d") (fun _ => .ok ⟨true, 1⟩)).status = .COMPLETED ∧
      (runFinal emptySourceState (.ok "d") (fun _ => .ok ⟨true, 1⟩)).results = [] ∧
      (runFinal emptySourceState (.ok "d") (fun _ => .ok ⟨true, 1⟩)).progress = 0) :=
  ⟨rfl, rfl, rfl,
    ((scan_zero_candidates emptySourceState "d" (fun _ => .ok ⟨true, 1⟩)
      rfl rfl rfl).2.1),
    ((scan_zero_candidates emptySourceState "d" (fun _ => .ok ⟨true, 1⟩)
      rfl rfl rfl).2.2.1),
    ((scan_zero_candidates emptySourceState "d" (fun _ => .ok ⟨true, 1⟩)
      rfl rfl rfl).2.2.2.2.2.1)⟩

/-- Dropping the head of a nonempty-tailed list does not change its last
element. -/
theorem lastD_cons {α : Type _} (a d : α) (l : List α) (h : l ≠ []) :
    ((a :: l).getLast?).getD d = (l.getLast?).getD d := by
  cases l with
  | nil => exact absurd rfl h
  | cons b m => rw [List.getLast?_cons_cons]

/-- The scan loop always produces at least one observable state. -/
theorem scanLoop_ne_nil (vOf : Nat → Except Unit MatchVerdict)
    (cands : List Candidate) (st : AppState) (i : Nat) :
    scanLoop vOf cands st i ≠ [] := by
  cases cands with
  | nil => simp [scanLoop]
  | cons c rest => cases hv : vOf i <;> simp [scanLoop, hv]

/-- The loop never touches the reference image, the source fields, the
profile, or the fixed total. -/
theorem scanLoop_mem_pres (vOf : Nat → Except Unit MatchVerdict) :
    ∀ (cands : List Candidate) (st : AppState) (i : Nat),
      ∀ t ∈ scanLoop vOf cands st i,
        t.refImage = st.refImage ∧ t.folderHandle = st.folderHandle ∧
        t.legacyFiles = st.legacyFiles ∧ t.profile = st.profile ∧
        t.totalFiles = st.totalFiles := by
  intro cands
  induction cands with
  | nil =>
    intro st i t ht
    simp only [scanLoop, List.mem_singleton] at ht
    subst ht
    exact ⟨rfl, rfl, rfl, rfl, rfl⟩
  | cons c rest ih =>
    intro st i t ht
    cases hv : vOf i with
    | error e =>
      simp only [scanLoop, hv, List.mem_cons, List.not_mem_nil, or_false] at ht
      rcases ht with rfl | rfl <;> exact ⟨rfl, rfl, rfl, rfl, rfl⟩
    | ok v =>
      simp only [scanLoop, hv, List.mem_cons] at ht
      rcases ht with rfl | rfl | ht
      · exact ⟨rfl, rfl, rfl, rfl, rfl⟩
      · by_cases hacc : accepts v <;> simp [hacc]
      · have := ih _ _ t ht
        by_cases hacc : accepts v <;> simp only [hacc, if_true, if_false] at this <;>
          exact this

/-- Every state the loop emits either keeps the entry status or carries the
abort status `IDLE` or the terminal status `COMPLETED`. -/
theorem scanLoop_mem_status (vOf : Nat → Except Unit MatchVerdict) :
    ∀ (cands : List Candidate) (st : AppState) (i : Nat),
      ∀ t ∈ scanLoop vOf cands st i,
        t.status = st.status ∨ t.status = .IDLE ∨ t.status = .COMPLETED := by
  intro cands
  induction cands with
  | nil =>
    intro st i t ht
    simp only [scanLoop, List.mem_singleton] at ht
    subst ht
    right; right; rfl
  | cons c rest ih =>
    intro st i t ht
    cases hv : vOf i with
    | error e =>
      simp only [scanLoop, hv, List.mem_cons, List.not_mem_nil, or_false] at ht
      rcases ht with rfl | rfl
      · left; rfl
      · right; left; rfl
    | ok v =>
      simp only [scanLoop, hv, List.mem_cons] at ht
      rcases ht with rfl | rfl | ht
      · left; rfl
      · by_cases hacc : accepts v <;> simp [hacc]
      · have := ih _ _ t ht
        by_cases hacc : accepts v <;> simp only [hacc, if_true, if_false] at this <;>
          exact this

/-- The last state of the loop is the `IDLE` abort state or the `COMPLETED`
terminal state. -/
theorem scanLoop_last_status (vOf : Nat → Except Unit MatchVerdict) (d : AppState) :
    ∀ (cands : List Candidate) (st : AppState) (i : Nat),
      (((scanLoop vOf cands st i).getLast?).getD d).status = .IDLE ∨
      (((scanLoop vOf cands st i).getLast?).getD d).status = .COMPLETED := by
  intro cands
  induction cands with
  | nil => intro st i; right; simp [scanLoop]
  | cons c rest ih =>
    intro st i
    cases hv : vOf i with
    | error e => left; simp [scanLoop, hv]
    | ok v =>
      simp only [scanLoop, hv]
      rw [List.getLast?_cons_cons,
        lastD_cons _ _ _ (scanLoop_ne_nil vOf rest _ (i + 1))]
      exact ih _ _

/-- With every verdict well formed (no exception), the loop terminates in
`COMPLETED`. -/
theorem scanLoop_allOk_last_status (v : Nat → MatchVerdict) (d : AppState) :
    ∀ (cands : List Candidate) (st : AppState) (i : Nat),
      (((scanLoop (fun j => .ok (v j)) cands st i).getLast?).getD d).status =
        .COMPLETED := by
  intro cands
  induction cands with
  | nil => intro st i; simp [scanLoop]
  | cons c rest ih =>
    intro st i
    simp only [scanLoop]
    rw [List.getLast?_cons_cons,
      lastD_cons _ _ _ (scanLoop_ne_nil _ rest _ (i + 1))]
    exact ih _ _

/-- With every verdict well formed, the final result set is the entry result
set extended by one result per accepted verdict, in candidate order. -/
theorem scanLoop_allOk_last_results (v : Nat → MatchVerdict) (d : AppState) :
    ∀ (cands : List Candidate) (st : AppState) (i : Nat),
      (((scanLoop (fun j => .ok (v j)) cands st i).getLast?).getD d).results =
        st.results ++ acceptedFrom v cands i := by
  intro cands
  induction cands with
  | nil => intro st i; simp [scanLoop, acceptedFrom]
  | cons c rest ih =>
    intro st i
    simp only [scanLoop]
    rw [List.getLast?_cons_cons,
      lastD_cons _ _ _ (scanLoop_ne_nil _ rest _ (i + 1))]
    rw [ih _ (i + 1)]
    by_cases hacc : accepts (v i) <;>
      simp [hacc, acceptedFrom, List.append_assoc]

/-- Under a fatal error at candidate `k`, the loop ends in the `IDLE` abort
state. -/
theorem scanLoop_abort_last_status (v : Nat → MatchVerdict) (k : Nat) (d : AppState) :
    ∀ (cands : List Candidate) (st : AppState) (i : Nat),
      i ≤ k → k < i + cands.length →
      (((scanLoop (abortAt v k) cands st i).getLast?).getD d).status = .IDLE := by
  intro cands
  induction cands with
  | nil => intro st i hik hlt; simp at hlt; omega
  | cons c rest ih =>
    intro st i hik hlt
    rcases Nat.lt_or_ge i k with hlt2 | hge
    · have hv : abortAt v k i = .ok (v i) := by simp [abortAt, hlt2]
      simp only [scanLoop, hv]
      rw [List.getLast?_cons_cons,
        lastD_cons _ _ _ (scanLoop_ne_nil _ rest _ (i + 1))]
      exact ih _ (i + 1) hlt2 (by simp only [List.length_cons] at hlt; omega)
    · have hik2 : i = k := le_antisymm hik hge
      subst hik2
      have hv : abortAt v i i = .error () := by simp [abortAt]
      simp [scanLoop, hv]

/-- Under a fatal error at candidate `k`, the loop's final result set is the
entry result set extended by the accepted results of the candidates strictly
before `k` — nothing is discarded. -/
theorem scanLoop_abort_last_results (v : Nat → MatchVerdict) (k : Nat) (d : AppState) :
    ∀ (cands : List Candidate) (st : AppState) (i : Nat),
      i ≤ k →
      (((scanLoop (abortAt v k) cands st i).getLast?).getD d).results =
        st.results ++ acceptedFrom v (cands.take (k - i)) i := by
  intro cands
  induction cands with
  | nil => intro st i hik; simp [scanLoop, acceptedFrom]
  | cons c rest ih =>
    intro st i hik
    rcases Nat.lt_or_ge i k with hlt2 | hge
    · have hv : abortAt v k i = .ok (v i) := by simp [abortAt, hlt2]
      simp only [scanLoop, hv]
      rw [List.getLast?_cons_cons,
        lastD_cons _ _ _ (scanLoop_ne_nil _ rest _ (i + 1))]
      rw [ih _ (i + 1) hlt2]
      obtain ⟨m, hm⟩ : ∃ m, k - i = m + 1 := ⟨k - i - 1, by omega⟩
      have hm2 : k - (i + 1) = m := by omega
      rw [hm, hm2, List.take_succ_cons, acceptedFrom]
      by_cases hacc : accepts (v i) <;> simp [hacc, List.append_assoc]
    · have hik2 : i = k := le_antisymm hik hge
      subst hik2
      have hv : abortAt v i i = .error () := by simp [abortAt]
      simp [scanLoop, hv, acceptedFrom]

/-- Under a fatal error at candidate `k` (0-indexed) within range, the final
processed count is `k + 1`: the failing candidate was counted, none after. -/
theorem scanLoop_abort_last_processed (v : Nat → MatchVerdict) (k : Nat) (d : AppState) :
    ∀ (cands : List Candidate) (st : AppState) (i : Nat),
      i ≤ k → k < i + cands.length →
      (((scanLoop (abortAt v k) cands st i).getLast?).getD d).processedCount =
        k + 1 := by
  intro cands
  induction cands with
  | nil => intro st i hik hlt; simp at hlt; omega
  | cons c rest ih =>
    intro st i hik hlt
    rcases Nat.lt_or_ge i k with hlt2 | hge
    · have hv : abortAt v k i = .ok (v i) := by simp [abortAt, hlt2]
      simp only [scanLoop, hv]
      rw [List.getLast?_cons_cons,
        lastD_cons _ _ _ (scanLoop_ne_nil _ rest _ (i + 1))]
      exact ih _ (i + 1) hlt2 (by simp only [List.length_cons] at hlt; omega)
    · have hik2 : i = k := le_antisymm hik hge
      subst hik2
      have hv : abortAt v i i = .error () := by simp [abortAt]
      simp [scanLoop, hv]

/-- Under a fatal error at candidate `k`, no state of the loop ever counts
past `k + 1` processed candidates: candidates after the failing one are never
processed. -/
theorem scanLoop_abort_mem_processed (v : Nat → MatchVerdict) (k : Nat) :
    ∀ (cands : List Candidate) (st : AppState) (i : Nat),
      st.processedCount ≤ k + 1 → i ≤ k →
      ∀ t ∈ scanLoop (abortAt v k) cands st i, t.processedCount ≤ k + 1 := by
  intro cands
  induction cands with
  | nil =>
    intro st i hst hik t ht
    simp only [scanLoop, List.mem_singleton] at ht
    subst ht
    exact hst
  | cons c rest ih =>
    intro st i hst hik t ht
    rcases Nat.lt_or_ge i k with hlt2 | hge
    · have hv : abortAt v k i = .ok (v i) := by simp [abortAt, hlt2]
      simp only [scanLoop, hv, List.mem_cons] at ht
      rcases ht with rfl | rfl | ht
      · simp; omega
      · by_cases hacc : accepts (v i) <;> simp [hacc] <;> omega
      · refine ih _ (i + 1) ?_ hlt2 t ht
        by_cases hacc : accepts (v i) <;> simp [hacc] <;> omega
    · have hik2 : i = k := le_antisymm hik hge
      subst hik2
      have hv : abortAt v i i = .error () := by simp [abortAt]
      simp only [scanLoop, hv, List.mem_cons, List.not_mem_nil, or_false] at ht
      rcases ht with rfl | rfl <;> simp

/-- Every result the loop accumulates has a passing verdict stored in it:
`match` is `true` and the confidence exceeds the threshold. -/
theorem acceptedFrom_mem_fields (v : Nat → MatchVerdict) :
    ∀ (cands : List Candidate) (i : Nat), ∀ r ∈ acceptedFrom v cands i,
      r.matchFlag = true ∧ r.confidence > threshold := by
  intro cands
  induction cands with
  | nil => intro i r hr; simp [acceptedFrom] at hr
  | cons c rest ih =>
    intro i r hr
    by_cases hacc : accepts (v i)
    · simp only [acceptedFrom, hacc, if_true, List.cons_append, List.nil_append,
        List.mem_cons] at hr
      rcases hr with rfl | hr
      · exact ⟨hacc.1, hacc.2⟩
      · exact ih (i + 1) r hr
    · simp only [acceptedFrom, hacc, if_false, List.nil_append] at hr
      exact ih (i + 1) r hr

/-- Each candidate whose verdict passes the acceptance rule contributes its
result to the accumulated set. -/
theorem acceptedFrom_mem_of_accepts (v : Nat → MatchVerdict) :
    ∀ (cands : List Candidate) (i j : Nat) (h : j < cands.length),
      accepts (v (i + j)) →
      mkResult (cands.get ⟨j, h⟩) (v (i + j)) ∈ acceptedFrom v cands i := by
  intro cands
  induction cands with
  | nil => intro i j h; simp at h
  | cons c rest ih =>
    intro i j h hacc
    cases j with
    | zero =>
      simp only [Nat.add_zero] at hacc
      simp [acceptedFrom, hacc]
    | succ m =>
      have := ih (i + 1) m (by simpa using Nat.lt_of_succ_lt_succ h)
        (by simpa [Nat.add_comm, Nat.add_assoc, Nat.add_left_comm] using hacc)
      simp only [acceptedFrom, List.mem_append]
      right
      simpa [Nat.add_comm, Nat.add_assoc, Nat.add_left_comm] using this

/-- With the preconditions met and the profile built, the state `startScan`
leaves behind is the last state of its loop. -/
theorem runFinal_ok (s : AppState) (desc : String)
    (vOf : Nat → Except Unit MatchVerdict)
    (h1 : refMissing s = false) (h2 : sourceMissing s = false) :
    runFinal s (.ok desc) vOf =
      ((scanLoop vOf (enumCandidates s) (scanEnumerated s desc) 0).getLast?).getD s := by
  rw [runFinal, startScanTrace]
  simp only [h1, h2, Bool.or_self, Bool.false_eq_true, if_false]
  rw [lastD_cons _ _ _ (by simp), lastD_cons _ _ _ (by simp),
    lastD_cons _ _ _ (scanLoop_ne_nil vOf _ _ 0)]

/-- C1: in a run where every candidate's evaluation returns a well-formed
verdict, the run completes, and a result for a candidate is present in the
final result sequence iff that candidate's verdict had `match == true` and
confidence strictly greater than `0.6`. -/
theorem scan_results_iff_accepted (s : AppState) (desc : String)
    (v : Nat → MatchVerdict)
    (h1 : refMissing s = false) (h2 : sourceMissing s = false) :
    (runFinal s (.ok desc) (fun j => .ok (v j))).status = .COMPLETED ∧
    (runFinal s (.ok desc) (fun j => .ok (v j))).results =
      acceptedFrom v (enumCandidates s) 0 ∧
    ∀ (i : Nat) (h : i < (enumCandidates s).length),
      (mkResult ((enumCandidates s).get ⟨i, h⟩) (v i) ∈
          (runFinal s (.ok desc) (fun j => .ok (v j))).results ↔
        ((v i).matchFlag = true ∧ (v i).confidence > 0.6)) := by
  have hrf := runFinal_ok s desc (fun j => .ok (v j)) h1 h2
  have hres : (runFinal s (.ok desc) (fun j => .ok (v j))).results =
      acceptedFrom v (enumCandidates s) 0 := by
    rw [hrf, scanLoop_allOk_last_results]
    simp [scanEnumerated, scanProfiled, scanInit]
  refine ⟨by rw [hrf]; exact scanLoop_allOk_last_status v s _ _ 0, hres, ?_⟩
  intro i h
  rw [hres, ← threshold_eq]
  constructor
  · intro hmem
    exact acceptedFrom_mem_fields v (enumCandidates s) 0 _ hmem
  · intro hacc
    have := acceptedFrom_mem_of_accepts v (enumCandidates s) 0 i h
      (by simpa using hacc)
    simpa using this

/-- The end-to-end scenario of the spec: three candidates with verdicts
`{true, 0.9}`, `{true, 0.3}` and `{false, 0.95}`. -/
def scenarioState : AppState :=
  { initState with
    refImage := some "face",
    folderHandle := some
      [{ kind := .file, name := "x.jpg", content := "X" },
       { kind := .file, name := "y.jpg", content := "Y" },
       { kind := .file, name := "z.jpg", content := "Z" }] }

/-- The verdicts of the spec scenario. -/
def scenarioVerdicts : Nat → MatchVerdict :=
  fun j => if j = 0 then ⟨true, 0.9⟩ else if j = 1 then ⟨true, 0.3⟩ else ⟨false, 0.95⟩

/-- Witness for C1 at the spec's end-to-end scenario. -/
theorem scan_results_iff_accepted_w :
    refMissing scenarioState = false ∧
    sourceMissing scenarioState = false ∧
    ((runFinal scenarioState (.ok "desc") (fun j => .ok (scenarioVerdicts j))).status =
        .COMPLETED ∧
      (runFinal scenarioState (.ok "desc") (fun j => .ok (scenarioVerdicts j))).results =
        acceptedFrom scenarioVerdicts (enumCandidates scenarioState) 0 ∧
      ∀ (i : Nat) (h : i < (enumCandidates scenarioState).length),
        (mkResult ((enumCandidates scenarioState).get ⟨i, h⟩) (scenarioVerdicts i) ∈
            (runFinal scenarioState (.ok "desc")
              (fun j => .ok (scenarioVerdicts j))).results ↔
          ((scenarioVerdicts i).matchFlag = true ∧
            (scenarioVerdicts i).confidence > 0.6))) :=
  ⟨rfl, rfl, scan_results_iff_accepted scenarioState "desc" scenarioVerdicts rfl rfl⟩

/-- C2 (amended): when processing candidate `k` (0-indexed here) raises a
fatal error, the run aborts without processing any later candidate — no state
ever counts past `k + 1` processed — and the run state returns to `IDLE`; but
the results accumulated for candidates before `k` are retained, not
discarded: the final result set is exactly the accepted results of the first
`k` candidates. -/
theorem scan_abort_behavior (s : AppState) (desc : String)
    (v : Nat → MatchVerdict) (k : Nat)
    (h1 : refMissing s = false) (h2 : sourceMissing s = false)
    (hk : k < (enumCandidates s).length) :
    (runFinal s (.ok desc) (abortAt v k)).status = .IDLE ∧
    (runFinal s (.ok desc) (abortAt v k)).results =
      acceptedFrom v ((enumCandidates s).take k) 0 ∧
    (runFinal s (.ok desc) (abortAt v k)).processedCount = k + 1 ∧
    ∀ t ∈ startScanTrace s (.ok desc) (abortAt v k), t.processedCount ≤ k + 1 := by
  have hrf := runFinal_ok s desc (abortAt v k) h1 h2
  refine ⟨?_, ?_, ?_, ?_⟩
  · rw [hrf]
    exact scanLoop_abort_last_status v k s _ _ 0 (Nat.zero_le k) (by simpa using hk)
  · rw [hrf, scanLoop_abort_last_results v k s _ _ 0 (Nat.zero_le k)]
    simp [scanEnumerated, scanProfiled, scanInit]
  · rw [hrf]
    exact scanLoop_abort_last_processed v k s _ _ 0 (Nat.zero_le k) (by simpa using hk)
  · intro t ht
    rw [startScanTrace] at ht
    simp only [h1, h2, Bool.or_self, Bool.false_eq_true, if_false,
      List.mem_cons] at ht
    rcases ht with rfl | rfl | rfl | ht
    · simp [scanInit]
    · simp [scanProfiled, scanInit]
    · simp [scanEnumerated, scanProfiled, scanInit]
    · exact scanLoop_abort_mem_processed v k (enumCandidates s)
        (scanEnumerated s desc) 0
        (by simp [scanEnumerated, scanProfiled, scanInit]) (Nat.zero_le k) t ht

/-- The state of claim C2's counterexample: a reference image and a directory
source with two image files. -/
def abortState : AppState :=
  { initState with
    refImage := some "face",
    folderHandle := some
      [{ kind := .file, name := "a.jpg", content := "A" },
       { kind := .file, name := "b.jpg", content := "B" }] }

/-- Verdicts for the counterexample run: every evaluated candidate matches
with confidence 0.9. -/
def abortVerdicts : Nat → MatchVerdict := fun _ => ⟨true, q910⟩

/-- Claim C2 counterexample: candidate 1 passes (confidence 0.9), candidate 2
raises a fatal error; the run does return to `IDLE`, but the accumulated
result set is NOT discarded — the accepted result of candidate 1 is still
present after the abort. -/
theorem scan_abort_keeps_results_cex :
    (runFinal abortState (.ok "d") (abortAt abortVerdicts 1)).status = .IDLE ∧
    (runFinal abortState (.ok "d") (abortAt abortVerdicts 1)).results =
      [{ fileName := "a.jpg", matchFlag := true, confidence := q910,
         handle := some { kind := .file, name := "a.jpg", content := "A" },
         previewUrl := "A" }] ∧
    (runFinal abortState (.ok "d") (abortAt abortVerdicts 1)).results ≠ [] := by
  refine ⟨rfl, rfl, by decide⟩

/-- Witness for C2 (amended) at the counterexample run. -/
theorem scan_abort_behavior_w :
    refMissing abortState = false ∧
    sourceMissing abortState = false ∧
    1 < (enumCandidates abortState).length ∧
    ((runFinal abortState (.ok "d") (abortAt abortVerdicts 1)).status = .IDLE ∧
      (runFinal abortState (.ok "d") (abortAt abortVerdicts 1)).results =
        acceptedFrom abortVerdicts ((enumCandidates abortState).take 1) 0 ∧
      (runFinal abortState (.ok "d") (abortAt abortVerdicts 1)).processedCount = 2 ∧
      ∀ t ∈ startScanTrace abortState (.ok "d") (abortAt abortVerdicts 1),
        t.processedCount ≤ 2) :=
  ⟨rfl, rfl, by decide,
    scan_abort_behavior abortState "d" abortVerdicts 1 rfl rfl (by decide)⟩

/-- Between consecutive loop states the result set only grows (by appending)
and the processed count is unchanged or incremented by exactly one. -/
theorem scanLoop_chain (vOf : Nat → Except Unit MatchVerdict) :
    ∀ (cands : List Candidate) (st : AppState) (i : Nat),
      st.processedCount = i →
      List.Chain' (fun a b => (∃ tl, b.results = a.results ++ tl) ∧
        (b.processedCount = a.processedCount ∨
          b.processedCount = a.processedCount + 1))
        (st :: scanLoop vOf cands st i) := by
  intro cands
  induction cands with
  | nil =>
    intro st i hpc
    simp only [scanLoop]
    exact List.chain'_cons.2 ⟨⟨⟨[], by simp⟩, Or.inl rfl⟩, List.chain'_singleton _⟩
  | cons c rest ih =>
    intro st i hpc
    cases hv : vOf i with
    | error e =>
      simp only [scanLoop, hv]
      refine List.chain'_cons.2 ⟨⟨⟨[], by simp⟩, Or.inr (by simp [hpc])⟩, ?_⟩
      exact List.chain'_cons.2 ⟨⟨⟨[], by simp⟩, Or.inl rfl⟩, List.chain'_singleton _⟩
    | ok v =>
      simp only [scanLoop, hv]
      by_cases hacc : accepts v
      · simp only [hacc, if_true]
        refine List.chain'_cons.2 ⟨⟨⟨[], by simp⟩, Or.inr (by simp [hpc])⟩, ?_⟩
        refine List.chain'_cons.2 ⟨⟨⟨[mkResult c v], by simp⟩, Or.inl rfl⟩, ?_⟩
        exact ih _ (i + 1) rfl
      · simp only [hacc, if_false]
        refine List.chain'_cons.2 ⟨⟨⟨[], by simp⟩, Or.inr (by simp [hpc])⟩, ?_⟩
        refine List.chain'_cons.2 ⟨⟨⟨[], by simp⟩, Or.inl rfl⟩, ?_⟩
        exact ih _ (i + 1) rfl

/-- Once the total is fixed, every state the loop emits keeps the same total,
keeps the processed count within it, and reports exactly the rounded
percentage of its processed count. -/
theorem scanLoop_mem_inv (vOf : Nat → Except Unit MatchVerdict) :
    ∀ (cands : List Candidate) (st : AppState) (i : Nat),
      st.processedCount = i → st.totalFiles = i + cands.length →
      st.progress = round (((st.processedCount : ℚ) / (st.totalFiles : ℚ)) * 100) →
      ∀ t ∈ st :: scanLoop vOf cands st i,
        t.totalFiles = st.totalFiles ∧ t.processedCount ≤ t.totalFiles ∧
        t.progress = round (((t.processedCount : ℚ) / (t.totalFiles : ℚ)) * 100) := by
  intro cands
  induction cands with
  | nil =>
    intro st i hpc htot hpr t ht
    simp only [scanLoop, List.mem_cons, List.mem_singleton,
      List.not_mem_nil, or_false] at ht
    rcases ht with rfl | rfl
    · exact ⟨rfl, by omega, hpr⟩
    · exact ⟨rfl, by simp; omega, hpr⟩
  | cons c rest ih =>
    intro st i hpc htot hpr t ht
    simp only [List.length_cons] at htot
    cases hv : vOf i with
    | error e =>
      simp only [scanLoop, hv, List.mem_cons, List.not_mem_nil, or_false] at ht
      rcases ht with rfl | rfl | rfl
      · exact ⟨rfl, by omega, hpr⟩
      · exact ⟨rfl, by simp; omega, rfl⟩
      · exact ⟨rfl, by simp; omega, rfl⟩
    | ok v =>
      simp only [scanLoop, hv, List.mem_cons] at ht
      rcases ht with rfl | rfl | rfl | ht
      · exact ⟨rfl, by omega, hpr⟩
      · exact ⟨rfl, by simp; omega, rfl⟩
      · by_cases hacc : accepts v
        · rw [if_pos hacc]
          exact ⟨rfl, by simp; omega, rfl⟩
        · rw [if_neg hacc]
          exact ⟨rfl, by simp; omega, rfl⟩
      · by_cases hacc : accepts v
        · rw [if_pos hacc] at ht
          have := ih _ (i + 1) rfl (by simp; omega) rfl t
            (List.mem_cons.2 (Or.inr ht))
          simpa using this
        · rw [if_neg hacc] at ht
          have := ih _ (i + 1) rfl (by simp; omega) rfl t
            (List.mem_cons.2 (Or.inr ht))
          simpa using this

/-- C5: during a single scan run, once enumeration completes (the `SCANNING`
entry state and every loop state after it), the total never changes and
equals the candidate count; the processed count never exceeds it and moves by
at most one per step, increasing by exactly one per processed candidate; the
reported percentage always equals `round(processedCount/totalCount*100)`; and
the result set only ever grows, by appending. -/
theorem scan_run_invariants (s : AppState) (desc : String)
    (vOf : Nat → Except Unit MatchVerdict)
    (h1 : refMissing s = false) (h2 : sourceMissing s = false) :
    startScanTrace s (.ok desc) vOf =
      scanInit s :: scanProfiled s desc :: scanEnumerated s desc ::
        scanLoop vOf (enumCandidates s) (scanEnumerated s desc) 0 ∧
    (∀ t ∈ scanEnumerated s desc ::
        scanLoop vOf (enumCandidates s) (scanEnumerated s desc) 0,
      t.totalFiles = (enumCandidates s).length ∧
      t.processedCount ≤ t.totalFiles ∧
      t.progress = round (((t.processedCount : ℚ) / (t.totalFiles : ℚ)) * 100)) ∧
    List.Chain' (fun a b => (∃ tl, b.results = a.results ++ tl) ∧
      (b.processedCount = a.processedCount ∨
        b.processedCount = a.processedCount + 1))
      (scanEnumerated s desc ::
        scanLoop vOf (enumCandidates s) (scanEnumerated s desc) 0) := by
  refine ⟨by rw [startScanTrace]; simp [h1, h2], ?_, ?_⟩
  · intro t ht
    have := scanLoop_mem_inv vOf (enumCandidates s) (scanEnumerated s desc) 0
      rfl (by simp [scanEnumerated]) (by simp [scanEnumerated, scanProfiled, scanInit])
      t ht
    simpa [scanEnumerated] using this
  · exact scanLoop_chain vOf _ _ 0 rfl

/-- Witness for C5 at the spec's three-candidate scenario. -/
theorem scan_run_invariants_w :
    refMissing scenarioState = false ∧
    sourceMissing scenarioState = false ∧
    (startScanTrace scenarioState (.ok "desc") (fun j => .ok (scenarioVerdicts j)) =
      scanInit scenarioState :: scanProfiled scenarioState "desc" ::
        scanEnumerated scenarioState "desc" ::
        scanLoop (fun j => .ok (scenarioVerdicts j)) (enumCandidates scenarioState)
          (scanEnumerated scenarioState "desc") 0 ∧
    (∀ t ∈ scanEnumerated scenarioState "desc" ::
        scanLoop (fun j => .ok (scenarioVerdicts j)) (enumCandidates scenarioState)
          (scanEnumerated scenarioState "desc") 0,
      t.totalFiles = (enumCandidates scenarioState).length ∧
      t.processedCount ≤ t.totalFiles ∧
      t.progress = round (((t.processedCount : ℚ) / (t.totalFiles : ℚ)) * 100)) ∧
    List.Chain' (fun a b => (∃ tl, b.results = a.results ++ tl) ∧
      (b.processedCount = a.processedCount ∨
        b.processedCount = a.processedCount + 1))
      (scanEnumerated scenarioState "desc" ::
        scanLoop (fun j => .ok (scenarioVerdicts j)) (enumCandidates scenarioState)
          (scanEnumerated scenarioState "desc") 0)) :=
  ⟨rfl, rfl,
    scan_run_invariants scenarioState "desc" (fun j => .ok (scenarioVerdicts j)) rfl rfl⟩


/-- The bytes organize reads for a result through its handle. -/
def resBytes (r : ScanResult) : String :=
  (r.handle.map DirEntry.content).getD ""

/-- The destination store after writing a list of results in order. -/
def applyResultWrites (rs : List ScanResult) (st : Store) : Store :=
  rs.foldl (fun acc r => setEntry acc r.fileName (resBytes r)) st

/-- The bytes of the last write a result list performs on a given name. -/
def lastWriteVal : List ScanResult → String → Option String
  | [], _ => none
  | r :: rest, n =>
    match lastWriteVal rest n with
    | some v => some v
    | none => if r.fileName = n then some (resBytes r) else none

/-- Overwriting one name leaves every other name's bytes unchanged. -/
theorem lookupS_setEntry (st : Store) (n c m : String) :
    lookupS (setEntry st n c) m = if m = n then some c else lookupS st m := by
  induction st with
  | nil =>
    by_cases h : m = n
    · subst h; simp [setEntry, lookupS]
    · simp [setEntry, lookupS, h, Ne.symm h]
  | cons p rest ih =>
    obtain ⟨pn, pc⟩ := p
    by_cases h1 : pn = n
    · subst h1
      by_cases h2 : m = pn
      · subst h2; simp [setEntry, lookupS]
      · simp [setEntry, lookupS, h2, Ne.symm h2]
    · by_cases h2 : m = pn
      · subst h2
        simp [setEntry, lookupS, h1]
      · simp [setEntry, lookupS, h1, h2, Ne.symm h2, ih]

/-- A name the write sequence never touches keeps its previous bytes. -/
theorem lastWriteVal_none_lookup (n : String) :
    ∀ (rs : List ScanResult) (st : Store), lastWriteVal rs n = none →
      lookupS (applyResultWrites rs st) n = lookupS st n := by
  intro rs
  induction rs with
  | nil => intro st h; simp [applyResultWrites]
  | cons r rest ih =>
    intro st h
    cases hl : lastWriteVal rest n with
    | some w =>
      simp only [lastWriteVal, hl] at h
      exact absurd h (by simp)
    | none =>
      simp only [lastWriteVal, hl] at h
      by_cases hf : r.fileName = n
      · rw [if_pos hf] at h
        exact absurd h (by simp)
      · simp only [applyResultWrites, List.foldl_cons]
        have := ih (setEntry st r.fileName (resBytes r)) hl
        simp only [applyResultWrites] at this
        rw [this, lookupS_setEntry, if_neg (fun hnm => hf hnm.symm)]

/-- A name the write sequence does touch ends with the bytes of the last
write to it. -/
theorem lastWriteVal_some_lookup (n v : String) :
    ∀ (rs : List ScanResult) (st : Store), lastWriteVal rs n = some v →
      lookupS (applyResultWrites rs st) n = some v := by
  intro rs
  induction rs with
  | nil => intro st h; simp [lastWriteVal] at h
  | cons r rest ih =>
    intro st h
    simp only [applyResultWrites, List.foldl_cons]
    cases hl : lastWriteVal rest n with
    | some w =>
      simp only [lastWriteVal, hl, Option.some.injEq] at h
      subst h
      have := ih (setEntry st r.fileName (resBytes r)) hl
      simpa [applyResultWrites] using this
    | none =>
      simp only [lastWriteVal, hl] at h
      by_cases hf : r.fileName = n
      · rw [if_pos hf] at h
        have h2 : resBytes r = v := by simpa using h
        have := lastWriteVal_none_lookup n rest
          (setEntry st r.fileName (resBytes r)) hl
        simp only [applyResultWrites] at this
        rw [this, lookupS_setEntry, if_pos hf.symm, h2]
      · rw [if_neg hf] at h
        exact absurd h (by simp)

/-- Writing the same result list twice leaves every destination name with the
same bytes as writing it once. -/
theorem applyResultWrites_idem (rs : List ScanResult) (st : Store) (n : String) :
    lookupS (applyResultWrites rs (applyResultWrites rs st)) n =
      lookupS (applyResultWrites rs st) n := by
  cases hl : lastWriteVal rs n with
  | some v =>
    rw [lastWriteVal_some_lookup n v rs _ hl, lastWriteVal_some_lookup n v rs _ hl]
  | none => rw [lastWriteVal_none_lookup n rs _ hl]

/-- When every write succeeds and every handle is present, the organize loop
runs to completion and performs exactly the writes of the result list. -/
theorem organizeStore_allOk (rs : List ScanResult) :
    ∀ (i : Nat) (st : Store), (∀ r ∈ rs, r.handle.isSome = true) →
      organizeStore (fun _ => true) rs i st = (applyResultWrites rs st, true) := by
  induction rs with
  | nil => intro i st hh; simp [organizeStore, applyResultWrites]
  | cons r rest ih =>
    intro i st hh
    have hr : r.handle.isSome = true := hh r (List.mem_cons_self r rest)
    obtain ⟨h, hsome⟩ := Option.isSome_iff_exists.1 hr
    simp only [organizeStore, hsome, if_true]
    rw [ih (i + 1) _ (fun x hx => hh x (List.mem_cons_of_mem r hx))]
    simp [applyResultWrites, resBytes, hsome]

/-- When every handle is present and the first failing write is the `k`-th,
the loop stops there: the writes of the first `k` results are applied, the
rest are not, and the loop reports failure. -/
theorem organizeStore_failAt (wOk : Nat → Bool) :
    ∀ (rs : List ScanResult) (k i : Nat) (st : Store),
      (∀ r ∈ rs, r.handle.isSome = true) →
      (∀ j, j < k → wOk (i + j) = true) → wOk (i + k) = false →
      k < rs.length →
      organizeStore wOk rs i st = (applyResultWrites (rs.take k) st, false) := by
  intro rs
  induction rs with
  | nil => intro k i st hh hok hfail hk; simp at hk
  | cons r rest ih =>
    intro k i st hh hok hfail hk
    have hr : r.handle.isSome = true := hh r (List.mem_cons_self r rest)
    obtain ⟨h, hsome⟩ := Option.isSome_iff_exists.1 hr
    cases k with
    | zero =>
      simp only [Nat.add_zero] at hfail
      simp [organizeStore, hsome, hfail, applyResultWrites]
    | succ m =>
      have h0 : wOk i = true := by simpa using hok 0 (Nat.succ_pos m)
      simp only [organizeStore, hsome, h0, if_true]
      rw [ih m (i + 1) _ (fun x hx => hh x (List.mem_cons_of_mem r hx))
        (fun j hj => by
          have := hok (j + 1) (Nat.succ_lt_succ hj)
          simpa [Nat.add_comm, Nat.add_assoc, Nat.add_left_comm] using this)
        (by simpa [Nat.add_comm, Nat.add_assoc, Nat.add_left_comm] using hfail)
        (by simpa using Nat.lt_of_succ_lt_succ hk)]
      simp [applyResultWrites, resBytes, hsome, List.take_succ_cons]

/-- C7: if the `k`-th write fails during organize (every handle being
present), the remaining organize work is aborted — only the writes of the
first `k` results reach the store, which is otherwise left as it stood — and
the app state passes through `ORGANIZING` and returns to `COMPLETED` (not
`IDLE`), with the scan result set left intact. -/
theorem organize_write_failure (s : AppState) (st0 : Store) (wOk : Nat → Bool)
    (k : Nat) (hf : s.folderHandle.isSome = true) (hr : s.results ≠ [])
    (hh : ∀ r ∈ s.results, r.handle.isSome = true)
    (hok : ∀ j, j < k → wOk j = true) (hfail : wOk k = false)
    (hk : k < s.results.length) :
    organizeStore wOk s.results 0 st0 =
      (applyResultWrites (s.results.take k) st0, false) ∧
    organizeStateTrace s =
      [{ s with status := .ORGANIZING }, { s with status := .COMPLETED }] ∧
    ({ s with status := .COMPLETED } : AppState).results = s.results := by
  refine ⟨?_, ?_, rfl⟩
  · exact organizeStore_failAt wOk s.results k 0 st0 hh
      (fun j hj => by simpa using hok j hj) (by simpa using hfail) hk
  · have h1 : s.folderHandle.isNone = false := by
      cases hfh : s.folderHandle with
      | none => rw [hfh] at hf; simp at hf
      | some x => simp
    have h2 : s.results.isEmpty = false := by
      cases hres : s.results with
      | nil => exact absurd hres hr
      | cons a l => simp
    simp [organizeStateTrace, h1, h2]

/-- A write handle for the organize witnesses. -/
def wEntryA : DirEntry := { kind := .file, name := "a.jpg", content := "A" }

/-- A second write handle for the organize witnesses. -/
def wEntryB : DirEntry := { kind := .file, name := "b.jpg", content := "B" }

/-- Two accepted results with write handles, for the organize witnesses. -/
def orgResults : List ScanResult :=
  [{ fileName := "a.jpg", matchFlag := true, confidence := q910,
     handle := some wEntryA, previewUrl := "A" },
   { fileName := "b.jpg", matchFlag := true, confidence := q910,
     handle := some wEntryB, previewUrl := "B" }]

/-- A completed-scan state holding the two organize-witness results. -/
def orgState : AppState :=
  { initState with
    status := .COMPLETED,
    folderHandle := some [wEntryA, wEntryB],
    results := orgResults }

/-- The write oracle that fails from the second write on. -/
def failSecond : Nat → Bool := fun j => decide (j < 1)

/-- Witness for C7: the second of two writes fails; the first file stays
written, the store gains nothing else, and the state returns to `COMPLETED`
with the results untouched. -/
theorem organize_write_failure_w :
    orgState.folderHandle.isSome = true ∧
    orgState.results ≠ [] ∧
    (∀ r ∈ orgState.results, r.handle.isSome = true) ∧
    failSecond 1 = false ∧
    1 < orgState.results.length ∧
    (organizeStore failSecond orgState.results 0 [] =
      (applyResultWrites (orgState.results.take 1) [], false) ∧
    organizeStateTrace orgState =
      [{ orgState with status := .ORGANIZING },
       { orgState with status := .COMPLETED }] ∧
    ({ orgState with status := .COMPLETED } : AppState).results =
      orgState.results) :=
  ⟨rfl, List.cons_ne_nil _ _, by decide, rfl, by decide,
    organize_write_failure orgState [] failSecond 1 rfl (List.cons_ne_nil _ _)
      (by decide) (fun j hj => by simp [failSecond, hj]) rfl (by decide)⟩

/-- When the first `k` results carry handles and result `k` does not, the
loop performs the first `k` writes and then aborts at the absent handle
(`res.handle.getFile()` throwing on `null`), regardless of the write oracle
from there on. -/
theorem organizeStore_noneAt (wOk : Nat → Bool) :
    ∀ (rs : List ScanResult) (k i : Nat) (st : Store) (hk : k < rs.length),
      (∀ r ∈ rs.take k, r.handle.isSome = true) →
      (∀ j, j < k → wOk (i + j) = true) →
      (rs.get ⟨k, hk⟩).handle = none →
      organizeStore wOk rs i st = (applyResultWrites (rs.take k) st, false) := by
  intro rs
  induction rs with
  | nil => intro k i st hk; simp at hk
  | cons r rest ih =>
    intro k i st hk hh hok hnone
    cases k with
    | zero =>
      simp only [List.get] at hnone
      simp [organizeStore, hnone, applyResultWrites]
    | succ m =>
      have hr : r.handle.isSome = true := by
        refine hh r ?_
        rw [List.take_succ_cons]
        exact List.mem_cons_self r _
      obtain ⟨h, hsome⟩ := Option.isSome_iff_exists.1 hr
      have h0 : wOk i = true := by simpa using hok 0 (Nat.succ_pos m)
      simp only [organizeStore, hsome, h0, if_true]
      rw [ih m (i + 1) _ (by simpa using Nat.lt_of_succ_lt_succ hk)
        (fun x hx => hh x (by
          rw [List.take_succ_cons]
          exact List.mem_cons_of_mem r hx))
        (fun j hj => by
          have := hok (j + 1) (Nat.succ_lt_succ hj)
          simpa [Nat.add_comm, Nat.add_assoc, Nat.add_left_comm] using this)
        (by simpa [List.get] using hnone)]
      simp [applyResultWrites, resBytes, hsome, List.take_succ_cons]

/-- A result of a legacy-source scan: accepted, but with no write handle. -/
def legacyResult : ScanResult :=
  { fileName := "c.jpg", matchFlag := true, confidence := q910,
    handle := none, previewUrl := "C" }

/-- A result set with one eligible (handle-bearing) result followed by one
ineligible handle-less result. -/
def mixedResults : List ScanResult :=
  [{ fileName := "a.jpg", matchFlag := true, confidence := q910,
     handle := some wEntryA, previewUrl := "A" },
   legacyResult]

/-- Claim C9 counterexample: on a result set with one eligible result and one
handle-less result, organize does not skip the ineligible result — the read
through its absent handle throws after the first write, the run aborts, and
no written count is ever reported, so the reported count does not equal the
eligible-result count (here 1) on either run. -/
theorem organize_ineligible_abort_cex :
    (mixedResults.filter (fun r => r.handle.isSome)).length = 1 ∧
    organizeStore (fun _ => true) mixedResults 0 [] =
      ([("a.jpg", "A")], false) ∧
    organizeReported mixedResults
      (organizeStore (fun _ => true) mixedResults 0 []).2 = none ∧
    organizeReported mixedResults
        (organizeStore (fun _ => true) mixedResults 0 []).2 ≠
      some ((mixedResults.filter (fun r => r.handle.isSome)).length) := by
  refine ⟨rfl, rfl, rfl, by decide⟩

/-- C9 (amended): when every result carries a write handle, organize is
idempotent on destination content — both passes over the same result set run
to completion, after the second pass every destination name holds exactly the
bytes it held after the first, and the reported written count equals the
eligible-result count (the full count) on both passes.  But a result without
a write handle is not skipped as ineligible: organize performs the writes
before the first handle-less result, then aborts there with no count
reported. -/
theorem organize_idempotent_or_abort (rs : List ScanResult) (st0 : Store) :
    ((∀ r ∈ rs, r.handle.isSome = true) →
      organizeStore (fun _ => true) rs 0 st0 = (applyResultWrites rs st0, true) ∧
      organizeStore (fun _ => true) rs 0 (applyResultWrites rs st0) =
        (applyResultWrites rs (applyResultWrites rs st0), true) ∧
      (∀ n, lookupS (applyResultWrites rs (applyResultWrites rs st0)) n =
        lookupS (applyResultWrites rs st0) n) ∧
      organizeReported rs (organizeStore (fun _ => true) rs 0 st0).2 =
        some ((rs.filter (fun r => r.handle.isSome)).length) ∧
      organizeReported rs
          (organizeStore (fun _ => true) rs 0 (applyResultWrites rs st0)).2 =
        some ((rs.filter (fun r => r.handle.isSome)).length) ∧
      (rs.filter (fun r => r.handle.isSome)).length = rs.length) ∧
    (∀ (k : Nat) (hk : k < rs.length),
      (∀ r ∈ rs.take k, r.handle.isSome = true) →
      (rs.get ⟨k, hk⟩).handle = none →
      organizeStore (fun _ => true) rs 0 st0 =
        (applyResultWrites (rs.take k) st0, false) ∧
      organizeReported rs (organizeStore (fun _ => true) rs 0 st0).2 = none) := by
  constructor
  · intro hh
    have h1 := organizeStore_allOk rs 0 st0 hh
    have h2 := organizeStore_allOk rs 0 (applyResultWrites rs st0) hh
    have hfil : rs.filter (fun r => r.handle.isSome) = rs :=
      List.filter_eq_self.2 (fun r hr => hh r hr)
    refine ⟨h1, h2, fun n => applyResultWrites_idem rs st0 n, ?_, ?_, by rw [hfil]⟩
    · rw [h1]; simp [organizeReported, hfil]
    · rw [h2]; simp [organizeReported, hfil]
  · intro k hk hh hnone
    have habort := organizeStore_noneAt (fun _ => true) rs k 0 st0 hk hh
      (fun j hj => rfl) hnone
    refine ⟨habort, ?_⟩
    rw [habort]
    simp [organizeReported]

/-- Witness for C9 (amended): the all-eligible two-result set runs
idempotently, and the mixed set aborts at its handle-less second result. -/
theorem organize_idempotent_or_abort_w :
    (∀ r ∈ orgResults, r.handle.isSome = true) ∧
    (1 < mixedResults.length ∧
      (∀ r ∈ mixedResults.take 1, r.handle.isSome = true) ∧
      (mixedResults.get ⟨1, by decide⟩).handle = none) ∧
    ((organizeStore (fun _ => true) orgResults 0 [] =
        (applyResultWrites orgResults [], true) ∧
      organizeStore (fun _ => true) orgResults 0 (applyResultWrites orgResults []) =
        (applyResultWrites orgResults (applyResultWrites orgResults []), true) ∧
      (∀ n, lookupS (applyResultWrites orgResults
          (applyResultWrites orgResults [])) n =
        lookupS (applyResultWrites orgResults []) n) ∧
      organizeReported orgResults
          (organizeStore (fun _ => true) orgResults 0 []).2 =
        some ((orgResults.filter (fun r => r.handle.isSome)).length) ∧
      organizeReported orgResults
          (organizeStore (fun _ => true) orgResults 0
            (applyResultWrites orgResults [])).2 =
        some ((orgResults.filter (fun r => r.handle.isSome)).length) ∧
      (orgResults.filter (fun r => r.handle.isSome)).length =
        orgResults.length) ∧
    (organizeStore (fun _ => true) mixedResults 0 [] =
      (applyResultWrites (mixedResults.take 1) [], false) ∧
    organizeReported mixedResults
      (organizeStore (fun _ => true) mixedResults 0 []).2 = none)) :=
  ⟨by decide, ⟨by decide, by decide, rfl⟩,
    (organize_idempotent_or_abort orgResults []).1 (by decide),
    (organize_idempotent_or_abort mixedResults []).2 1 (by decide) (by decide) rfl⟩

/-- The per-state half of claim C8 that the code does satisfy: any `SCANNING`
state carries a profile and a candidate source, and any `ORGANIZING` state
carries at least one result and a write-capable source. -/
def statusGuards (t : AppState) : Prop :=
  (t.status = .SCANNING → t.profile.isSome = true ∧
    (t.folderHandle.isSome = true ∨ t.legacyFiles ≠ [])) ∧
  (t.status = .ORGANIZING → t.results ≠ [] ∧ t.folderHandle.isSome = true)

/-- Every state a scan produces satisfies the status guards: `SCANNING` is
only reached after the profile is stored and with the guard-checked source
still in place, and a scan never shows an `ORGANIZING` state. -/
theorem startScanTrace_statusGuards (s : AppState) (pOut : Except Unit String)
    (vOf : Nat → Except Unit MatchVerdict) :
    ∀ t ∈ startScanTrace s pOut vOf, statusGuards t := by
  intro t ht
  rw [startScanTrace.eq_def] at ht
  by_cases hg : (refMissing s || sourceMissing s) = true
  · rw [if_pos hg] at ht
    simp at ht
  · rw [if_neg hg] at ht
    have hsource : s.folderHandle.isSome = true ∨ s.legacyFiles ≠ [] := by
      cases hfold : s.folderHandle with
      | some x => left; simp
      | none =>
        cases hleg : s.legacyFiles with
        | cons a l => right; simp
        | nil =>
          exact absurd (by simp [sourceMissing, hfold, hleg]) hg
    cases pOut with
    | error e =>
      simp only [List.mem_cons, List.not_mem_nil, or_false] at ht
      rcases ht with rfl | rfl <;>
        exact ⟨fun h => by simp [scanInit] at h, fun h => by simp [scanInit] at h⟩
    | ok desc =>
      simp only [List.mem_cons] at ht
      rcases ht with rfl | rfl | rfl | ht
      · exact ⟨fun h => by simp [scanInit] at h, fun h => by simp [scanInit] at h⟩
      · exact ⟨fun h => by simp [scanProfiled, scanInit] at h,
          fun h => by simp [scanProfiled, scanInit] at h⟩
      · refine ⟨fun _ => ⟨by simp [scanEnumerated, scanProfiled, scanInit], ?_⟩,
          fun h => by simp [scanEnumerated, scanProfiled, scanInit] at h⟩
        simpa [scanEnumerated, scanProfiled, scanInit] using hsource
      · obtain ⟨hri, hfo, hle, hpr, hto⟩ :=
          scanLoop_mem_pres vOf (enumCandidates s) (scanEnumerated s desc) 0 t ht
        have hstat :=
          scanLoop_mem_status vOf (enumCandidates s) (scanEnumerated s desc) 0 t ht
        constructor
        · intro _
          constructor
          · rw [hpr]; simp [scanEnumerated, scanProfiled, scanInit]
          · rw [hfo, hle]
            simpa [scanEnumerated, scanProfiled, scanInit] using hsource
        · intro h
          rcases hstat with h2 | h2 | h2 <;> rw [h] at h2 <;>
            simp [scanEnumerated, scanProfiled, scanInit] at h2

/-- Both states organize produces satisfy the status guards: `ORGANIZING` is
only shown with a nonempty result set and a directory handle. -/
theorem organizeStateTrace_statusGuards (s : AppState) :
    ∀ t ∈ organizeStateTrace s, statusGuards t := by
  intro t ht
  rw [organizeStateTrace] at ht
  by_cases hg : (s.folderHandle.isNone || s.results.isEmpty) = true
  · rw [if_pos hg] at ht
    simp at ht
  · rw [if_neg hg] at ht
    have h1 : s.folderHandle.isSome = true := by
      cases hfold : s.folderHandle with
      | some x => simp
      | none => exact absurd (by simp [hfold]) hg
    have h2 : s.results ≠ [] := by
      cases hres : s.results with
      | cons a l => simp
      | nil => exact absurd (by simp [hres]) hg
    simp only [List.mem_cons, List.not_mem_nil, or_false] at ht
    rcases ht with rfl | rfl
    · exact ⟨fun h => by simp at h, fun _ => ⟨h2, h1⟩⟩
    · exact ⟨fun h => by simp at h, fun h => by simp at h⟩

/-- The last state of a scan keeps the entry status (only when the trace is
empty) or ends `IDLE` or `COMPLETED`. -/
theorem startScanTrace_last_status (s : AppState) (pOut : Except Unit String)
    (vOf : Nat → Except Unit MatchVerdict) :
    (((startScanTrace s pOut vOf).getLast?).getD s).status = s.status ∨
    (((startScanTrace s pOut vOf).getLast?).getD s).status = .IDLE ∨
    (((startScanTrace s pOut vOf).getLast?).getD s).status = .COMPLETED := by
  rw [startScanTrace.eq_def]
  by_cases hg : (refMissing s || sourceMissing s) = true
  · rw [if_pos hg]; left; rfl
  · rw [if_neg hg]
    cases pOut with
    | error e => right; left; simp
    | ok desc =>
      rw [lastD_cons _ _ _ (by simp), lastD_cons _ _ _ (by simp),
        lastD_cons _ _ _ (scanLoop_ne_nil vOf _ _ 0)]
      right
      exact scanLoop_last_status vOf s (enumCandidates s) (scanEnumerated s desc) 0

/-- An indexed element of a list with a default is a member or the default. -/
theorem getD_mem_or_default {α : Type _} (l : List α) :
    ∀ (i : Nat) (d : α), l.getD i d ∈ l ∨ l.getD i d = d := by
  induction l with
  | nil => intro i d; right; simp [List.getD]
  | cons a rest ih =>
    intro i d
    cases i with
    | zero => left; simp [List.getD]
    | succ m =>
      rw [List.getD_cons_succ]
      rcases ih m d with h | h
      · left; exact List.mem_cons_of_mem a h
      · right; exact h

/-- Every state one event produces satisfies the status guards, and when the
event settles, the app is again neither `SCANNING` nor `ORGANIZING`. -/
theorem stepTrace_statusGuards (s : AppState) (e : Event)
    (hs : s.status ≠ .SCANNING ∧ s.status ≠ .ORGANIZING) :
    (∀ t ∈ stepTrace s e, statusGuards t) ∧
    (((stepTrace s e).getLast?).getD s).status ≠ .SCANNING ∧
    (((stepTrace s e).getLast?).getD s).status ≠ .ORGANIZING := by
  cases e with
  | setRef img =>
    refine ⟨?_, ?_, ?_⟩
    · intro t ht
      simp only [stepTrace, List.mem_singleton] at ht
      subst ht
      exact ⟨fun h => absurd h hs.1, fun h => absurd h hs.2⟩
    · simpa [stepTrace] using hs.1
    · simpa [stepTrace] using hs.2
  | selectModern entries =>
    refine ⟨?_, ?_, ?_⟩
    · intro t ht
      simp only [stepTrace, List.mem_singleton] at ht
      subst ht
      exact ⟨fun h => absurd h hs.1, fun h => absurd h hs.2⟩
    · simpa [stepTrace, selectFolderModern] using hs.1
    · simpa [stepTrace, selectFolderModern] using hs.2
  | selectLegacy files =>
    by_cases hemp : (legacyFilter files).isEmpty = true
    · refine ⟨?_, ?_, ?_⟩
      · intro t ht; simp [stepTrace, hemp] at ht
      · simpa [stepTrace, hemp] using hs.1
      · simpa [stepTrace, hemp] using hs.2
    · refine ⟨?_, ?_, ?_⟩
      · intro t ht
        simp only [stepTrace, if_neg hemp, List.mem_singleton] at ht
        subst ht
        constructor
        · intro h
          exact absurd (by simpa [handleLegacyFolderSelect, hemp] using h) hs.1
        · intro h
          exact absurd (by simpa [handleLegacyFolderSelect, hemp] using h) hs.2
      · simpa [stepTrace, hemp, handleLegacyFolderSelect] using hs.1
      · simpa [stepTrace, hemp, handleLegacyFolderSelect] using hs.2
  | scan pOut vOf =>
    rw [stepTrace, if_neg hs.1]
    refine ⟨startScanTrace_statusGuards s pOut vOf, ?_, ?_⟩
    · rcases startScanTrace_last_status s pOut vOf with h | h | h <;> rw [h]
      · exact hs.1
      · simp
      · simp
    · rcases startScanTrace_last_status s pOut vOf with h | h | h <;> rw [h]
      · exact hs.2
      · simp
      · simp
  | organize =>
    rw [stepTrace, if_neg hs.2]
    refine ⟨organizeStateTrace_statusGuards s, ?_, ?_⟩
    all_goals {
      rw [organizeStateTrace]
      by_cases hg : (s.folderHandle.isNone || s.results.isEmpty) = true
      · rw [if_pos hg]
        first
        | simpa using hs.1
        | simpa using hs.2
      · rw [if_neg hg]
        simp
    }

/-- Every state a session of events produces, starting from a quiescent
state, satisfies the status guards. -/
theorem runEvents_statusGuards :
    ∀ (es : List Event) (s : AppState),
      s.status ≠ .SCANNING ∧ s.status ≠ .ORGANIZING →
      ∀ t ∈ runEvents s es, statusGuards t := by
  intro es
  induction es with
  | nil => intro s hs t ht; simp [runEvents] at ht
  | cons e rest ih =>
    intro s hs t ht
    simp only [runEvents, List.mem_append] at ht
    obtain ⟨hstep, hlast1, hlast2⟩ := stepTrace_statusGuards s e hs
    rcases ht with ht | ht
    · exact hstep t ht
    · exact ih _ ⟨hlast1, hlast2⟩ t ht

/-- C8 (amended): in every reachable observable state of the app, `SCANNING`
only occurs with a stored profile and a selected candidate source, and
`ORGANIZING` only occurs with at least one accumulated result and a
write-capable directory handle — but, unlike the claim, `ORGANIZING` need not
be entered from `COMPLETED` (see the counterexample, which enters it from
`IDLE` after a fatal scan abort). -/
theorem reachable_status_guards (es : List Event) (i : Nat) :
    ((stateAt es i).status = .SCANNING →
      (stateAt es i).profile.isSome = true ∧
      ((stateAt es i).folderHandle.isSome = true ∨
        (stateAt es i).legacyFiles ≠ [])) ∧
    ((stateAt es i).status = .ORGANIZING →
      (stateAt es i).results ≠ [] ∧
      (stateAt es i).folderHandle.isSome = true) := by
  have hinit : statusGuards initState :=
    ⟨fun h => by simp [initState] at h, fun h => by simp [initState] at h⟩
  have : statusGuards (stateAt es i) := by
    rw [stateAt, fullTrace]
    rcases getD_mem_or_default (initState :: runEvents initState es) i initState
      with hmem | hdef
    · rcases List.mem_cons.1 hmem with heq | hmem2
      · rw [heq]; exact hinit
      · exact runEvents_statusGuards es initState
          ⟨by simp [initState], by simp [initState]⟩ _ hmem2
    · rw [hdef]; exact hinit
  exact this

/-- The event sequence of claim C8's counterexample: load a reference image,
pick a directory with two image files, run a scan whose second candidate
raises a fatal error (aborting to `IDLE` with candidate 1's accepted result
retained), then click organize. -/
def cexEvents : List Event :=
  [.setRef "face",
   .selectModern [wEntryA, wEntryB],
   .scan (.ok "d") (abortAt abortVerdicts 1),
   .organize]

set_option maxRecDepth 8000 in
/-- Claim C8 counterexample: in the session above, `ORGANIZING` is entered
directly from the `IDLE` state left behind by the fatal scan abort — the
abort retained a result and the organize button only checks for results and
a directory handle, so the claimed Completed-only entry into Organizing is
violated. -/
theorem organizing_from_idle_cex :
    orgOnlyFromCompleted (fullTrace cexEvents) = false ∧
    (stateAt cexEvents 9).status = .IDLE ∧
    (stateAt cexEvents 10).status = .ORGANIZING ∧
    (stateAt cexEvents 9).results ≠ [] := by
  refine ⟨by decide, rfl, rfl, by decide⟩

set_option maxRecDepth 8000 in
/-- Witness for C8 (amended): in the counterexample session, the `SCANNING`
state at index 5 has a profile and a source, and the `ORGANIZING` state at
index 10 has a result and a directory handle. -/
theorem reachable_status_guards_w :
    (stateAt cexEvents 5).status = .SCANNING ∧
    ((stateAt cexEvents 5).profile.isSome = true ∧
      ((stateAt cexEvents 5).folderHandle.isSome = true ∨
        (stateAt cexEvents 5).legacyFiles ≠ [])) ∧
    (stateAt cexEvents 10).status = .ORGANIZING ∧
    ((stateAt cexEvents 10).results ≠ [] ∧
      (stateAt cexEvents 10).folderHandle.isSome = true) :=
  ⟨rfl, (reachable_status_guards cexEvents 5).1 rfl,
   rfl, (reachable_status_guards cexEvents 10).2 rfl⟩
